import Mathlib

/-!
Shallow embedding of the deployment-log core of the repository
(`src/script/cli/src/util/deployment_log.rs`): the ABI value serializer
(`serialize_value` / `extract_constructor_inputs`), the duplicate detector
(`detect_duplicate`), the history reconciler
(`post_process_deployments_json`) and the deployment-log builder
(`generate_deployment_log`).

Modelling conventions:
* `serde_json::Value` is modelled by the inductive `Json`; JSON objects are
  association lists with an insert-or-replace operation (`setKey`), which
  matches `serde_json`'s map insertion up to key ordering (no property below
  depends on the order in which object keys are stored).
* `u64` timestamps are modelled as `Nat`: the source only compares
  timestamps, so no overflow behaviour is observable.
* The typed records `ContractRecord`, `HistoryEntry`, `LatestRecord`,
  `DeploymentLog` mirror the JSON shapes the source reads and writes; the
  source's `as_u64().unwrap()` / `as_object().unwrap()` accesses make these
  shapes a precondition of the dynamically typed original.
* Rust's `sort_by_key` is a stable ascending sort; it is modelled by the
  stable insertion sort `sortAsc` (a stable sort's output is uniquely
  determined by the key order and the input order, so any stable sort is an
  exact model). The source then calls `reverse()` on the result.
* `generate_deployment_log` performs network and filesystem I/O; it is
  modelled by explicit state passing: every external call result is a field
  of `GenEnv`, and the on-disk log file is the `Option DeploymentLog`
  component threaded through the function. The `expect`/`unwrap` panics of
  the original (unreadable file, malformed JSON, malformed hex) are outside
  the model; the fallible (`?`) steps are modelled in their source order.
-/

namespace Chronicles

/-- Model of `serde_json::Value`. -/
inductive Json where
  | null : Json
  | bool : Bool → Json
  | num : Nat → Json
  | str : String → Json
  | arr : List Json → Json
  | obj : List (String × Json) → Json
  deriving Repr

/-- Insert-or-replace on an association list; model of JSON object key
assignment (`result[key] = v`). -/
def setKey {α : Type} : List (String × α) → String → α → List (String × α)
  | [], k, v => [(k, v)]
  | (k', v') :: rest, k, v =>
      if k' = k then (k, v) :: rest else (k', v') :: setKey rest k v

/-- Key lookup on an association list; model of JSON object indexing. -/
def lookupName {α : Type} : List (String × α) → String → Option α
  | [], _ => none
  | (k', v) :: rest, k => if k' = k then some v else lookupName rest k

/-- Model of `alloy::json_abi::Param`: a constructor parameter
specification, keeping only the fields the source reads (`name`,
`components`). -/
inductive Param where
  | mk (name : String) (components : List Param)
  deriving Repr

def Param.name : Param → String
  | .mk n _ => n

def Param.components : Param → List Param
  | .mk _ c => c

/-- Model of `alloy::dyn_abi::DynSolValue`, the decoded ABI value variant.
`address` and `function` carry the `Display` rendering of the corresponding
primitive (a hex string), since the source only ever calls `to_string()` on
them; `fixedBytes` and `bytes` carry the raw byte list. -/
inductive DynSolValue where
  | address (a : String)
  | bool (b : Bool)
  | fixedBytes (b : List Nat) (size : Nat)
  | int (i : Int) (size : Nat)
  | uint (u : Nat) (size : Nat)
  | string (s : String)
  | tuple (t : List DynSolValue)
  | function (f : String)
  | bytes (b : List Nat)
  | array (l : List DynSolValue)
  | fixedArray (l : List DynSolValue)
  deriving Repr

/-- One lowercase hexadecimal digit. -/
def hexDigit (n : Nat) : Char :=
  if n < 10 then Char.ofNat (48 + n) else Char.ofNat (87 + n)

/-- Model of `hex::encode`: lowercase hex, two digits per byte, no prefix. -/
def hex_encode (b : List Nat) : String :=
  String.mk (b.foldr (fun byte acc => hexDigit (byte / 16) :: hexDigit (byte % 16) :: acc) [])

/-- A 32-byte big-endian word, as in ABI encoding. -/
def word256 (n : Nat) : List Nat :=
  (List.range 32).map (fun i => n / 256 ^ (31 - i) % 256)

/-- Zero-pad a byte string on the right to a multiple of 32 bytes. -/
def padRight32 (b : List Nat) : List Nat :=
  b ++ List.replicate ((32 - b.length % 32) % 32) 0

/-- Model of `DynSolValue::Bytes(b).abi_encode()`: the single-value ABI
encoding of a dynamic byte sequence — a one-word offset (32), the length
word, then the data zero-padded to a word boundary. -/
def abi_encode_bytes (b : List Nat) : List Nat :=
  word256 32 ++ word256 b.length ++ padRight32 b

mutual

/-- Model of `serialize_value` (deployment_log.rs:215-242): converts one
decoded ABI value into a JSON-safe value, given its parameter spec.
Scalar `to_string()` renderings: `Bool` prints `"true"`/`"false"`, `Int`
(`I256`) prints signed decimal, `Uint` (`U256`) prints decimal,
`FixedBytes` prints `"0x"` followed by lowercase hex. The tuple branch of
the source calls `extract_constructor_inputs(param.components, t)`, which
equals `extract_go param.components t []` below. -/
def serialize_value (param : Param) (value : DynSolValue) : Except String Json :=
  match value with
  | .address a => .ok (.str a)
  | .bool b => .ok (.str (if b then "true" else "false"))
  | .fixedBytes b _ => .ok (.str ("0x" ++ hex_encode b))
  | .int i _ => .ok (.str (toString i))
  | .uint u _ => .ok (.str (toString u))
  | .string s => .ok (.str s)
  | .tuple t => extract_go param.components t []
  | .function f => .ok (.str f)
  | .bytes b => .ok (.str (hex_encode (abi_encode_bytes b)))
  | .array _ => .error "Found array, not implemented"
  | .fixedArray _ => .error "Found fixed array, not implemented"

/-- The loop body of `extract_constructor_inputs` (deployment_log.rs:201-213):
walks the parameter list and the argument list in lockstep, assigning
`result[param.name] = serialize_value(param, arg)` and propagating the first
error. When the arguments run out before the parameters the source panics
with an index-out-of-bounds (the source comments that the lengths always
match); the panic is modelled as an error value. -/
def extract_go : List Param → List DynSolValue → List (String × Json) → Except String Json
  | [], _, acc => .ok (.obj acc)
  | _ :: _, [], _ => .error "index out of bounds"
  | p :: ps, a :: rest, acc =>
      match serialize_value p a with
      | .error e => .error e
      | .ok j => extract_go ps rest (setKey acc p.name j)

end

/-- Model of `extract_constructor_inputs` (deployment_log.rs:201-213). -/
def extract_constructor_inputs (constructor_params : List Param) (args : List DynSolValue) :
    Except String Json :=
  extract_go constructor_params args []

/-- One `ContractRecord` as stored under an entry's `contracts` object. -/
structure ContractRecord where
  address : String
  proxy : Bool
  deploymentTxn : String
  constructorInput : Json
  poolInitCodeHash : Option String
  deriving Repr

/-- One `HistoryEntry` of the deployment log. -/
structure HistoryEntry where
  timestamp : Nat
  commitHash : Option String
  contracts : List (String × ContractRecord)
  deriving Repr

/-- One record of the derived `latest` projection. -/
structure LatestRecord where
  address : String
  proxy : Bool
  deploymentTxn : String
  timestamp : Nat
  commitHash : Option String
  poolInitCodeHash : Option String
  deriving Repr, DecidableEq

/-- The per-network deployment log file. -/
structure DeploymentLog where
  chainId : String
  latest : List (String × LatestRecord)
  history : List HistoryEntry
  deriving Repr

/-- Model of `detect_duplicate` (deployment_log.rs:149-165): scan every
contract record of every history entry and fail, with a message carrying the
candidate address, at the first record whose `address` string equals the
candidate. -/
def detect_duplicate : List HistoryEntry → String → Except String Unit
  | [], _ => .ok ()
  | item :: rest, address =>
      if item.contracts.any (fun kv => kv.2.address = address) then
        .error ("Contract " ++ address ++ " already found in deployment logs")
      else
        detect_duplicate rest address

/-- Stable insertion of an entry into an ascending-by-timestamp list: the
new entry goes after every element whose timestamp is `≤` its own. -/
def insertAsc (e : HistoryEntry) : List HistoryEntry → List HistoryEntry
  | [] => [e]
  | x :: xs => if x.timestamp ≤ e.timestamp then x :: insertAsc e xs else e :: x :: xs

/-- Model of `history.sort_by_key(|k| k["timestamp"])`: Rust's stable
ascending sort (a stable sort's output is uniquely determined, so stable
insertion sort is an exact model). -/
def sortAsc (l : List HistoryEntry) : List HistoryEntry :=
  l.foldl (fun acc e => insertAsc e acc) []

/-- The `latest` record built for contract name `k` from history entry `e`
and its contract record `v` (deployment_log.rs:182-193): `address`, `proxy`,
`deploymentTxn` come from the record, `timestamp` from the entry, and
`commitHash` / `poolInitCodeHash` are copied only when non-null. -/
def mkLatest (e : HistoryEntry) (v : ContractRecord) : LatestRecord :=
  { address := v.address
    proxy := v.proxy
    deploymentTxn := v.deploymentTxn
    timestamp := e.timestamp
    commitHash := e.commitHash
    poolInitCodeHash := v.poolInitCodeHash }

/-- The body of the reconciliation loop for one `(k, v)` pair of one entry's
`contracts` object (deployment_log.rs:176-194): skip when `latest[k]` exists
with a strictly greater timestamp, otherwise overwrite `latest[k]`. -/
def updatePair (e : HistoryEntry) (acc : List (String × LatestRecord))
    (kv : String × ContractRecord) : List (String × LatestRecord) :=
  match lookupName acc kv.1 with
  | some r => if e.timestamp < r.timestamp then acc else setKey acc kv.1 (mkLatest e kv.2)
  | none => setKey acc kv.1 (mkLatest e kv.2)

/-- Processing one history entry of the reconciliation loop: fold
`updatePair` over the entry's `contracts` object. -/
def updateLatest (acc : List (String × LatestRecord)) (e : HistoryEntry) :
    List (String × LatestRecord) :=
  e.contracts.foldl (updatePair e) acc

/-- The full reconciliation walk (deployment_log.rs:174-195): start from the
empty object and process the (sorted) history in order. -/
def buildLatest (l : List HistoryEntry) : List (String × LatestRecord) :=
  l.foldl updateLatest []

/-- Model of `post_process_deployments_json` (deployment_log.rs:167-199):
sort the history ascending by timestamp (stable), reverse it, rebuild
`latest` by walking the result, and store both back. The Rust function
returns `Result` but has no error path (its only failure modes are
`unwrap` panics), so it is modelled as a total function. -/
def post_process_deployments_json (log : DeploymentLog) : DeploymentLog :=
  let history := (sortAsc log.history).reverse
  { chainId := log.chainId
    history := history
    latest := buildLatest history }

/-- A constructor ABI item, keeping the `inputs` field the source reads. -/
structure Constructor where
  inputs : List Param
  deriving Repr

/-- The resolved results of every external interaction performed by
`generate_deployment_log`, in source order: the parsed on-disk log file
(`none` when the file does not exist), the explorer contract-data call, the
local artifact existence check (a function of the contract name), the
creation-transaction lookup, the block-number and block-timestamp queries,
the ABI decode of the raw constructor arguments (hex decode plus
`abi_decode_input`, collapsed into one result), the two factory
init-code-hash queries, the `create_dir_all` call and the existence of the
forge-chronicles script. -/
structure GenEnv where
  fileContent : Option DeploymentLog
  contractDataRes : Except String (String × Option Constructor)
  artifactExists : String → Bool
  txHashRes : Except String String
  blockNumberRes : Except String Nat
  timestampRes : Except String Nat
  decodeRes : Except String (List DynSolValue)
  v2HashRes : Except String String
  v3HashRes : Except String String
  mkdirRes : Except String Unit
  chroniclesExists : Bool

/-- The log loaded at the start of a registration (deployment_log.rs:20-35):
the parsed file when it exists, otherwise the fresh empty log for the
chain. -/
def loadedLog (env : GenEnv) (chain_id : String) : DeploymentLog :=
  match env.fileContent with
  | some l => l
  | none => { chainId := chain_id, latest := [], history := [] }

/-- Model of `generate_deployment_log` (deployment_log.rs:13-147) by
explicit state passing: the second component of the result is the on-disk
log file after the call (initially `env.fileContent`); the write at
deployment_log.rs:122 is the only point that changes it. Every fallible
step is modelled in source order; the node subprocess invocation after the
chronicles existence check discards its result, as in the source. -/
def generate_deployment_log (contract_address chain_id : String) (env : GenEnv) :
    Except String Unit × Option DeploymentLog :=
  let log := loadedLog env chain_id
  match env.contractDataRes with
  | .error e => (.error e, env.fileContent)
  | .ok (contract_name, constructor) =>
    if ¬ env.artifactExists contract_name then
      (.error ("Smart contract '" ++ contract_name ++ "' not found in foundry 'out' directory"),
        env.fileContent)
    else
      match detect_duplicate log.history contract_address with
      | .error e => (.error e, env.fileContent)
      | .ok () =>
        match env.txHashRes with
        | .error e => (.error e, env.fileContent)
        | .ok tx_hash =>
          match env.blockNumberRes with
          | .error e => (.error e, env.fileContent)
          | .ok _block_number =>
            match env.timestampRes with
            | .error e => (.error e, env.fileContent)
            | .ok timestamp =>
              let argsE : Except String (Option (List DynSolValue)) :=
                match constructor with
                | some _ => env.decodeRes.map some
                | none => .ok none
              match argsE with
              | .error e => (.error e, env.fileContent)
              | .ok args =>
                let poolE : Except String (Option String) :=
                  if contract_name = "UniswapV2Factory" then env.v2HashRes.map some
                  else if contract_name = "UniswapV3Factory" then env.v3HashRes.map some
                  else .ok none
                match poolE with
                | .error e => (.error e, env.fileContent)
                | .ok pool_init_code_hash =>
                  let ctorJsonE : Except String Json :=
                    match constructor, args with
                    | some c, some a => extract_constructor_inputs c.inputs a
                    | _, _ => .ok (.obj [])
                  match ctorJsonE with
                  | .error e => (.error e, env.fileContent)
                  | .ok ctorJson =>
                    let contract_data : HistoryEntry :=
                      { timestamp := timestamp
                        commitHash := none
                        contracts := [(contract_name,
                          { address := contract_address
                            proxy := false
                            deploymentTxn := tx_hash
                            constructorInput := ctorJson
                            poolInitCodeHash := pool_init_code_hash })] }
                    match env.mkdirRes with
                    | .error e => (.error e, env.fileContent)
                    | .ok () =>
                      let outLog := post_process_deployments_json
                        { log with history := log.history ++ [contract_data] }
                      if ¬ env.chroniclesExists then
                        (.error "forge-chronicles not installed. Please run 'forge install 0xPolygon/forge-chronicles'",
                          some outLog)
                      else
                        (.ok (), some outLog)

/-- `true` when the entry's `contracts` object has a record under `name`. -/
def containsName (e : HistoryEntry) (name : String) : Bool :=
  (lookupName e.contracts name).isSome

/-- The maximum timestamp among the history entries whose `contracts`
object contains `name` (`0` when there is none). -/
def maxTimestamp (l : List HistoryEntry) (name : String) : Nat :=
  l.foldr (fun e m => if containsName e name then max e.timestamp m else m) 0

/-- The `latest` record the reconciliation walk of
`post_process_deployments_json` produces for `name` when it scans `l` in
order: the record built from the entry encountered last among the entries
that contain `name` and carry the maximal timestamp. -/
def scanWinner (l : List HistoryEntry) (name : String) : Option LatestRecord :=
  ((l.filter (fun e => containsName e name && (e.timestamp == maxTimestamp l name))).getLast?).bind
    (fun e => (lookupName e.contracts name).map (mkLatest e))

/-! ### Association-list lemmas -/

theorem lookupName_setKey_self {α : Type} (m : List (String × α)) (k : String) (v : α) :
    lookupName (setKey m k v) k = some v := by
  induction m with
  | nil => simp [setKey, lookupName]
  | cons kv rest ih =>
      obtain ⟨k', v'⟩ := kv
      by_cases h : k' = k
      · simp [setKey, h, lookupName]
      · simp [setKey, h, lookupName, ih]

theorem lookupName_setKey_ne {α : Type} (m : List (String × α)) {k k' : String} (v : α)
    (h : k' ≠ k) : lookupName (setKey m k v) k' = lookupName m k' := by
  induction m with
  | nil => simp [setKey, lookupName, Ne.symm h]
  | cons kv rest ih =>
      obtain ⟨a, b⟩ := kv
      by_cases ha : a = k
      · subst ha
        simp [setKey, lookupName, Ne.symm h]
      · simp only [setKey, if_neg ha, lookupName]
        by_cases ha' : a = k'
        · simp [ha']
        · simp [ha', ih]

theorem mem_keys_setKey {α : Type} (m : List (String × α)) (k k' : String) (v : α) :
    k' ∈ (setKey m k v).map Prod.fst ↔ k' = k ∨ k' ∈ m.map Prod.fst := by
  induction m with
  | nil => simp [setKey]
  | cons kv rest ih =>
      obtain ⟨a, b⟩ := kv
      by_cases ha : a = k
      · subst ha
        simp [setKey]
      · simp only [setKey, if_neg ha, List.map_cons, List.mem_cons, ih]
        tauto

theorem nodup_keys_setKey {α : Type} (m : List (String × α)) (k : String) (v : α)
    (h : (m.map Prod.fst).Nodup) : ((setKey m k v).map Prod.fst).Nodup := by
  induction m with
  | nil => simp [setKey]
  | cons kv rest ih =>
      obtain ⟨a, b⟩ := kv
      simp only [List.map_cons, List.nodup_cons] at h
      by_cases ha : a = k
      · subst ha
        simpa [setKey] using h
      · simp only [setKey, if_neg ha, List.map_cons, List.nodup_cons]
        refine ⟨?_, ih h.2⟩
        intro hmem
        rcases (mem_keys_setKey rest k a v).mp hmem with rfl | hmem'
        · exact ha rfl
        · exact h.1 hmem'

theorem lookupName_isSome_iff {α : Type} (m : List (String × α)) (k : String) :
    (lookupName m k).isSome ↔ k ∈ m.map Prod.fst := by
  induction m with
  | nil => simp [lookupName]
  | cons kv rest ih =>
      obtain ⟨a, b⟩ := kv
      by_cases ha : a = k
      · simp [lookupName, ha]
      · simp [lookupName, ha, ih, Ne.symm ha]

theorem lookupName_eq_none_iff {α : Type} (m : List (String × α)) (k : String) :
    lookupName m k = none ↔ ∀ kv ∈ m, kv.1 ≠ k := by
  constructor
  · intro h kv hm hk
    have : (lookupName m k).isSome := (lookupName_isSome_iff m k).mpr
      (List.mem_map.mpr ⟨kv, hm, hk⟩)
    rw [h] at this
    simp at this
  · intro h
    cases hl : lookupName m k with
    | none => rfl
    | some v =>
        have : (lookupName m k).isSome := by simp [hl]
        rcases List.mem_map.mp ((lookupName_isSome_iff m k).mp this) with ⟨kv, hm, hk⟩
        exact absurd hk (h kv hm)

/-! ### Lemmas about one step of the reconciliation loop -/

theorem lookupName_updatePair_ne (e : HistoryEntry) (acc : List (String × LatestRecord))
    (kv : String × ContractRecord) {name : String} (h : kv.1 ≠ name) :
    lookupName (updatePair e acc kv) name = lookupName acc name := by
  unfold updatePair
  cases lookupName acc kv.1 with
  | none => exact lookupName_setKey_ne acc _ (Ne.symm h)
  | some r =>
      by_cases ht : e.timestamp < r.timestamp
      · simp [ht]
      · simp [ht, lookupName_setKey_ne acc _ (Ne.symm h)]

theorem lookupName_foldl_updatePair_ne (e : HistoryEntry)
    (ps : List (String × ContractRecord)) (acc : List (String × LatestRecord)) {name : String}
    (h : ∀ kv ∈ ps, kv.1 ≠ name) :
    lookupName (ps.foldl (updatePair e) acc) name = lookupName acc name := by
  induction ps generalizing acc with
  | nil => rfl
  | cons kv rest ih =>
      rw [List.foldl_cons, ih _ (fun kv' hm => h kv' (List.mem_cons_of_mem kv hm)),
        lookupName_updatePair_ne e acc kv (h kv (List.mem_cons_self kv rest))]

theorem lookupName_updateLatest_of_not_contains (e : HistoryEntry)
    (acc : List (String × LatestRecord)) {name : String}
    (h : lookupName e.contracts name = none) :
    lookupName (updateLatest acc e) name = lookupName acc name :=
  lookupName_foldl_updatePair_ne e e.contracts acc ((lookupName_eq_none_iff _ _).mp h)

theorem lookupName_foldl_updatePair_mem (e : HistoryEntry)
    (ps : List (String × ContractRecord)) (acc : List (String × LatestRecord))
    {name : String} {v : ContractRecord}
    (hnd : (ps.map Prod.fst).Nodup) (h : lookupName ps name = some v) :
    lookupName (ps.foldl (updatePair e) acc) name =
      match lookupName acc name with
      | some r => if e.timestamp < r.timestamp then some r else some (mkLatest e v)
      | none => some (mkLatest e v) := by
  induction ps generalizing acc with
  | nil => simp [lookupName] at h
  | cons kv rest ih =>
      obtain ⟨k, w⟩ := kv
      simp only [List.map_cons, List.nodup_cons] at hnd
      by_cases hk : k = name
      · subst hk
        have hwv : w = v := by simpa [lookupName] using h
        subst hwv
        have hrest : ∀ kv' ∈ rest, kv'.1 ≠ k := by
          intro kv' hm hc
          exact hnd.1 (List.mem_map.mpr ⟨kv', hm, hc⟩)
        rw [List.foldl_cons, lookupName_foldl_updatePair_ne e rest _ hrest]
        unfold updatePair
        cases hacc : lookupName acc k with
        | none => simp [hacc, lookupName_setKey_self]
        | some r =>
            by_cases ht : e.timestamp < r.timestamp
            · simp [hacc, ht]
            · simp [hacc, ht, lookupName_setKey_self]
      · simp only [lookupName, if_neg hk] at h
        rw [List.foldl_cons, ih _ hnd.2 h,
          lookupName_updatePair_ne e acc (k, w) hk]

theorem lookupName_updateLatest_of_contains (e : HistoryEntry)
    (acc : List (String × LatestRecord)) {name : String} {v : ContractRecord}
    (hnd : (e.contracts.map Prod.fst).Nodup) (h : lookupName e.contracts name = some v) :
    lookupName (updateLatest acc e) name =
      match lookupName acc name with
      | some r => if e.timestamp < r.timestamp then some r else some (mkLatest e v)
      | none => some (mkLatest e v) :=
  lookupName_foldl_updatePair_mem e e.contracts acc hnd h

theorem nodup_keys_updatePair (e : HistoryEntry) (acc : List (String × LatestRecord))
    (kv : String × ContractRecord) (h : (acc.map Prod.fst).Nodup) :
    ((updatePair e acc kv).map Prod.fst).Nodup := by
  unfold updatePair
  cases lookupName acc kv.1 with
  | none => exact nodup_keys_setKey acc _ _ h
  | some r =>
      by_cases ht : e.timestamp < r.timestamp
      · simpa [ht] using h
      · simpa [ht] using nodup_keys_setKey acc _ _ h

theorem nodup_keys_updateLatest (e : HistoryEntry) (acc : List (String × LatestRecord))
    (h : (acc.map Prod.fst).Nodup) : ((updateLatest acc e).map Prod.fst).Nodup := by
  unfold updateLatest
  induction e.contracts generalizing acc with
  | nil => exact h
  | cons kv rest ih => exact ih _ (nodup_keys_updatePair e acc kv h)

theorem nodup_keys_buildLatest (l : List HistoryEntry) :
    ((buildLatest l).map Prod.fst).Nodup := by
  unfold buildLatest
  have : ∀ acc : List (String × LatestRecord), (acc.map Prod.fst).Nodup →
      ((l.foldl updateLatest acc).map Prod.fst).Nodup := by
    induction l with
    | nil => exact fun acc h => h
    | cons e rest ih => exact fun acc h => ih _ (nodup_keys_updateLatest e acc h)
  exact this [] (by simp)

/-! ### Lemmas about the stable sort -/

theorem insertAsc_perm (e : HistoryEntry) (l : List HistoryEntry) :
    List.Perm (insertAsc e l) (e :: l) := by
  induction l with
  | nil => exact List.Perm.refl _
  | cons x xs ih =>
      unfold insertAsc
      by_cases h : x.timestamp ≤ e.timestamp
      · rw [if_pos h]
        exact (ih.cons x).trans (List.Perm.swap e x xs)
      · rw [if_neg h]

theorem foldl_insertAsc_perm (l : List HistoryEntry) :
    ∀ acc : List HistoryEntry,
      List.Perm (l.foldl (fun acc e => insertAsc e acc) acc) (l ++ acc) := by
  induction l with
  | nil => intro acc; exact List.Perm.refl _
  | cons x xs ih =>
      intro acc
      have h1 := ih (insertAsc x acc)
      have h2 : List.Perm (xs ++ insertAsc x acc) (xs ++ (x :: acc)) :=
        List.Perm.append_left xs (insertAsc_perm x acc)
      have h3 : List.Perm (xs ++ (x :: acc)) (x :: (xs ++ acc)) := List.perm_middle
      exact (h1.trans (h2.trans h3))

theorem sortAsc_perm (l : List HistoryEntry) : List.Perm (sortAsc l) l := by
  simpa using foldl_insertAsc_perm l []

theorem insertAsc_sorted (e : HistoryEntry) (l : List HistoryEntry)
    (h : l.Pairwise (fun a b => a.timestamp ≤ b.timestamp)) :
    (insertAsc e l).Pairwise (fun a b => a.timestamp ≤ b.timestamp) := by
  induction l with
  | nil => simp [insertAsc]
  | cons x xs ih =>
      rw [List.pairwise_cons] at h
      unfold insertAsc
      by_cases hx : x.timestamp ≤ e.timestamp
      · rw [if_pos hx]
        refine List.pairwise_cons.mpr ⟨?_, ih h.2⟩
        intro y hy
        have hy2 : y ∈ e :: xs := (insertAsc_perm e xs).mem_iff.mp hy
        rcases List.mem_cons.mp hy2 with rfl | hy'
        · exact hx
        · exact h.1 y hy'
      · rw [if_neg hx]
        have he : e.timestamp ≤ x.timestamp := Nat.le_of_lt (Nat.lt_of_not_le hx)
        refine List.pairwise_cons.mpr ⟨?_, List.pairwise_cons.mpr h⟩
        intro y hy
        rcases List.mem_cons.mp hy with rfl | hy'
        · exact he
        · exact Nat.le_trans he (h.1 y hy')

theorem sortAsc_sorted (l : List HistoryEntry) :
    (sortAsc l).Pairwise (fun a b => a.timestamp ≤ b.timestamp) := by
  unfold sortAsc
  have : ∀ acc : List HistoryEntry, acc.Pairwise (fun a b => a.timestamp ≤ b.timestamp) →
      (l.foldl (fun acc e => insertAsc e acc) acc).Pairwise
        (fun a b => a.timestamp ≤ b.timestamp) := by
    induction l with
    | nil => exact fun acc h => h
    | cons x xs ih => exact fun acc h => ih _ (insertAsc_sorted x acc h)
  exact this [] (by simp)

theorem insertAsc_filter (e : HistoryEntry) (l : List HistoryEntry) (t : Nat)
    (h : l.Pairwise (fun a b => a.timestamp ≤ b.timestamp)) :
    (insertAsc e l).filter (fun x => x.timestamp == t) =
      l.filter (fun x => x.timestamp == t) ++ (if e.timestamp = t then [e] else []) := by
  induction l with
  | nil =>
      by_cases ht : e.timestamp = t
      · simp [insertAsc, ht]
      · simp [insertAsc, ht]
  | cons x xs ih =>
      rw [List.pairwise_cons] at h
      unfold insertAsc
      by_cases hx : x.timestamp ≤ e.timestamp
      · rw [if_pos hx]
        by_cases hxt : x.timestamp = t
        · simp [List.filter_cons, hxt, ih h.2]
        · simp [List.filter_cons, hxt, ih h.2]
      · rw [if_neg hx]
        have he : e.timestamp < x.timestamp := Nat.lt_of_not_le hx
        by_cases het : e.timestamp = t
        · have hnone : (x :: xs).filter (fun x => x.timestamp == t) = [] := by
            rw [List.filter_eq_nil_iff]
            intro a ha
            have hat : x.timestamp ≤ a.timestamp := by
              rcases List.mem_cons.mp ha with rfl | ha'
              · exact Nat.le_refl _
              · exact h.1 a ha'
            simp only [beq_iff_eq]
            omega
          simp [List.filter_cons, het, hnone]
        · simp [List.filter_cons, het]

theorem sortAsc_filter (l : List HistoryEntry) (t : Nat) :
    (sortAsc l).filter (fun x => x.timestamp == t) = l.filter (fun x => x.timestamp == t) := by
  unfold sortAsc
  have main : ∀ acc : List HistoryEntry,
      acc.Pairwise (fun a b => a.timestamp ≤ b.timestamp) →
      (l.foldl (fun acc e => insertAsc e acc) acc).filter (fun x => x.timestamp == t) =
        acc.filter (fun x => x.timestamp == t) ++ l.filter (fun x => x.timestamp == t) := by
    induction l with
    | nil => intro acc _; simp
    | cons x xs ih =>
        intro acc hacc
        rw [List.foldl_cons, ih _ (insertAsc_sorted x acc hacc), insertAsc_filter x acc t hacc,
          List.filter_cons]
        by_cases hxt : x.timestamp = t
        · have hcond : (x.timestamp == t) = true := by simpa using hxt
          simp [hcond, hxt, List.append_assoc]
        · have hcond : (x.timestamp == t) = false := by simpa using hxt
          simp [hcond, hxt]
  simpa using main [] (by simp)

/-! ### Lemmas about the maximal timestamp of a contract name -/

theorem maxTimestamp_le_of (l : List HistoryEntry) (name : String) (T : Nat)
    (h : ∀ e ∈ l, containsName e name = true → e.timestamp ≤ T) :
    maxTimestamp l name ≤ T := by
  induction l with
  | nil => exact Nat.zero_le T
  | cons x xs ih =>
      unfold maxTimestamp
      rw [List.foldr_cons]
      have ihx := ih (fun e hm hc => h e (List.mem_cons_of_mem x hm) hc)
      unfold maxTimestamp at ihx
      by_cases hc : containsName x name = true
      · rw [if_pos hc]
        exact Nat.max_le.mpr ⟨h x (List.mem_cons_self x xs) hc, ihx⟩
      · rw [if_neg hc]
        exact ihx

theorem le_maxTimestamp (l : List HistoryEntry) (name : String) {e : HistoryEntry}
    (hm : e ∈ l) (hc : containsName e name = true) :
    e.timestamp ≤ maxTimestamp l name := by
  induction l with
  | nil => cases hm
  | cons x xs ih =>
      unfold maxTimestamp
      rw [List.foldr_cons]
      rcases List.mem_cons.mp hm with rfl | hm'
      · rw [if_pos hc]
        exact Nat.le_max_left _ _
      · have ihx := ih hm'
        unfold maxTimestamp at ihx
        by_cases hcx : containsName x name = true
        · rw [if_pos hcx]
          exact Nat.le_trans ihx (Nat.le_max_right _ _)
        · rw [if_neg hcx]
          exact ihx

theorem maxTimestamp_eq_zero_of_none (l : List HistoryEntry) (name : String)
    (h : ∀ e ∈ l, containsName e name = false) : maxTimestamp l name = 0 := by
  induction l with
  | nil => rfl
  | cons x xs ih =>
      unfold maxTimestamp
      rw [List.foldr_cons]
      have hx := h x (List.mem_cons_self x xs)
      rw [if_neg (by simp [hx])]
      exact ih (fun e hm => h e (List.mem_cons_of_mem x hm))

theorem maxTimestamp_attained (l : List HistoryEntry) (name : String)
    (h : ∃ e ∈ l, containsName e name = true) :
    ∃ e ∈ l, containsName e name = true ∧ e.timestamp = maxTimestamp l name := by
  induction l with
  | nil => simp at h
  | cons x xs ih =>
      by_cases hcx : containsName x name = true
      · by_cases hmax : maxTimestamp xs name ≤ x.timestamp
        · refine ⟨x, List.mem_cons_self x xs, hcx, ?_⟩
          unfold maxTimestamp
          rw [List.foldr_cons, if_pos hcx]
          unfold maxTimestamp at hmax
          exact (Nat.max_eq_left hmax).symm
        · have hex : ∃ e ∈ xs, containsName e name = true := by
            by_contra hno
            push_neg at hno
            have : maxTimestamp xs name = 0 := by
              refine maxTimestamp_eq_zero_of_none xs name ?_
              intro e hm
              simpa using hno e hm
            omega
          obtain ⟨w, hwm, hwc, hwt⟩ := ih hex
          refine ⟨w, List.mem_cons_of_mem x hwm, hwc, ?_⟩
          unfold maxTimestamp
          rw [List.foldr_cons, if_pos hcx]
          unfold maxTimestamp at hwt hmax
          omega
      · have hex : ∃ e ∈ xs, containsName e name = true := by
          obtain ⟨e, hm, hc⟩ := h
          rcases List.mem_cons.mp hm with rfl | hm'
          · exact absurd hc hcx
          · exact ⟨e, hm', hc⟩
        obtain ⟨w, hwm, hwc, hwt⟩ := ih hex
        refine ⟨w, List.mem_cons_of_mem x hwm, hwc, ?_⟩
        unfold maxTimestamp
        rw [List.foldr_cons, if_neg (by simp [hcx])]
        exact hwt

theorem maxTimestamp_perm {l l' : List HistoryEntry} (hp : List.Perm l l') (name : String) :
    maxTimestamp l name = maxTimestamp l' name := by
  refine Nat.le_antisymm ?_ ?_
  · refine maxTimestamp_le_of l name _ ?_
    intro e hm hc
    exact le_maxTimestamp l' name (hp.mem_iff.mp hm) hc
  · refine maxTimestamp_le_of l' name _ ?_
    intro e hm hc
    exact le_maxTimestamp l name (hp.mem_iff.mpr hm) hc

theorem maxTimestamp_append_single (l : List HistoryEntry) (e : HistoryEntry) (name : String) :
    maxTimestamp (l ++ [e]) name =
      if containsName e name then max (maxTimestamp l name) e.timestamp
      else maxTimestamp l name := by
  have key : ∀ (m : List HistoryEntry) (c : Nat),
      m.foldr (fun e m => if containsName e name then max e.timestamp m else m) c =
        max (maxTimestamp m name) c := by
    intro m
    induction m with
    | nil => intro c; simp [maxTimestamp]
    | cons x xs ih =>
        intro c
        rw [List.foldr_cons]
        by_cases hcx : containsName x name = true
        · rw [if_pos hcx, ih c]
          have hx : maxTimestamp (x :: xs) name = max x.timestamp (maxTimestamp xs name) := by
            unfold maxTimestamp
            rw [List.foldr_cons, if_pos hcx]
          rw [hx]
          omega
        · rw [if_neg hcx, ih c]
          have hx : maxTimestamp (x :: xs) name = maxTimestamp xs name := by
            unfold maxTimestamp
            rw [List.foldr_cons, if_neg hcx]
          rw [hx]
  have h1 : maxTimestamp (l ++ [e]) name =
      max (maxTimestamp l name)
        (if containsName e name then max e.timestamp 0 else 0) := by
    unfold maxTimestamp
    rw [List.foldr_append, List.foldr_cons, List.foldr_nil]
    exact key l _
  rw [h1]
  by_cases hce : containsName e name = true
  · rw [if_pos hce, if_pos hce]
    omega
  · rw [if_neg hce, if_neg hce]
    omega

/-! ### The reconciliation walk on a reverse-chronologically ordered history -/

/-- On a history that is sorted descending by timestamp (as the walk of
`post_process_deployments_json` sees it), the final `latest[name]` is the
record built from the entry encountered *last* among the entries that
contain `name` and carry its maximal timestamp: an entry with the same
timestamp as the recorded one overwrites it (the source only skips on a
strictly greater recorded timestamp). -/
theorem buildLatest_lookup (l : List HistoryEntry) (name : String)
    (hsort : l.Pairwise (fun a b => b.timestamp ≤ a.timestamp))
    (hnd : ∀ e ∈ l, (e.contracts.map Prod.fst).Nodup) :
    lookupName (buildLatest l) name = scanWinner l name := by
  induction l using List.reverseRecOn with
  | nil => rfl
  | append_singleton l e ih =>
      have hparts := List.pairwise_append.mp hsort
      have hl : l.Pairwise (fun a b => b.timestamp ≤ a.timestamp) := hparts.1
      have hle : ∀ x ∈ l, e.timestamp ≤ x.timestamp := by
        intro x hx
        exact hparts.2.2 x hx e (List.mem_singleton_self e)
      have hndl : ∀ e' ∈ l, (e'.contracts.map Prod.fst).Nodup :=
        fun e' h' => hnd e' (List.mem_append_left _ h')
      have hnde : (e.contracts.map Prod.fst).Nodup :=
        hnd e (List.mem_append_right _ (List.mem_singleton_self e))
      have hstep : buildLatest (l ++ [e]) = updateLatest (buildLatest l) e := by
        unfold buildLatest
        rw [List.foldl_append]
        rfl
      have ihl := ih hl hndl
      rw [hstep]
      cases hc : lookupName e.contracts name with
      | none =>
          have hce : containsName e name = false := by simp [containsName, hc]
          rw [lookupName_updateLatest_of_not_contains e _ hc, ihl]
          have hmax : maxTimestamp (l ++ [e]) name = maxTimestamp l name := by
            rw [maxTimestamp_append_single, if_neg (by simp [hce])]
          unfold scanWinner
          rw [hmax, List.filter_append]
          have : [e].filter
              (fun e' => containsName e' name && (e'.timestamp == maxTimestamp l name)) = [] := by
            simp [List.filter_cons, hce]
          rw [this, List.append_nil]
      | some v =>
          have hce : containsName e name = true := by simp [containsName, hc]
          rw [lookupName_updateLatest_of_contains e _ hnde hc, ihl]
          cases hwl : scanWinner l name with
          | none =>
              have hno : ∀ x ∈ l, containsName x name = false := by
                by_contra hcon
                push_neg at hcon
                obtain ⟨x, hxm, hxc⟩ := hcon
                have hxc' : containsName x name = true := by
                  simpa using hxc
                obtain ⟨w, hwm, hwc, hwt⟩ :=
                  maxTimestamp_attained l name ⟨x, hxm, hxc'⟩
                have hwmem : w ∈ l.filter
                    (fun e' => containsName e' name && (e'.timestamp == maxTimestamp l name)) := by
                  rw [List.mem_filter]
                  exact ⟨hwm, by simp [hwc, hwt]⟩
                have hne : l.filter
                    (fun e' => containsName e' name && (e'.timestamp == maxTimestamp l name)) ≠ [] :=
                  List.ne_nil_of_mem hwmem
                unfold scanWinner at hwl
                cases hgl : (l.filter
                    (fun e' => containsName e' name &&
                      (e'.timestamp == maxTimestamp l name))).getLast? with
                | none => exact hne (List.getLast?_eq_none_iff.mp hgl)
                | some u =>
                    rw [hgl] at hwl
                    have hum := List.mem_of_getLast?_eq_some hgl
                    have huc : containsName u name = true :=
                      (Bool.and_eq_true_iff.mp (List.mem_filter.mp hum).2).1
                    have : (lookupName u.contracts name).isSome := huc
                    cases hulook : lookupName u.contracts name with
                    | none => rw [hulook] at this; simp at this
                    | some uv => simp [hulook] at hwl
              have hmaxl : maxTimestamp l name = 0 :=
                maxTimestamp_eq_zero_of_none l name hno
              have hmax : maxTimestamp (l ++ [e]) name = e.timestamp := by
                rw [maxTimestamp_append_single, if_pos hce, hmaxl]
                omega
              have hfl : l.filter
                  (fun e' => containsName e' name && (e'.timestamp == e.timestamp)) = [] := by
                rw [List.filter_eq_nil_iff]
                intro a ha
                simp [hno a ha]
              unfold scanWinner
              rw [hmax, List.filter_append, hfl, List.nil_append]
              simp [List.filter_cons, hce, hc]
          | some r =>
              unfold scanWinner at hwl
              cases hgl : (l.filter
                  (fun e' => containsName e' name &&
                    (e'.timestamp == maxTimestamp l name))).getLast? with
              | none => rw [hgl] at hwl; simp at hwl
              | some w =>
                  rw [hgl] at hwl
                  simp only [Option.some_bind] at hwl
                  rw [Option.map_eq_some'] at hwl
                  obtain ⟨vw, hvw, hmk⟩ := hwl
                  have hwmem := List.mem_of_getLast?_eq_some hgl
                  have hwl' := List.mem_filter.mp hwmem
                  have hwts : w.timestamp = maxTimestamp l name := by
                    have := (Bool.and_eq_true_iff.mp hwl'.2).2
                    simpa using this
                  have hrts : r.timestamp = maxTimestamp l name := by
                    rw [← hmk]
                    simpa [mkLatest] using hwts
                  have hel : e.timestamp ≤ maxTimestamp l name :=
                    Nat.le_trans (hle w hwl'.1) (Nat.le_of_eq hwts)
                  by_cases ht : e.timestamp < r.timestamp
                  · have hmax : maxTimestamp (l ++ [e]) name = maxTimestamp l name := by
                      rw [maxTimestamp_append_single, if_pos hce]
                      omega
                    have hfe : [e].filter
                        (fun e' => containsName e' name &&
                          (e'.timestamp == maxTimestamp l name)) = [] := by
                      have : (e.timestamp == maxTimestamp l name) = false := by
                        simp only [beq_eq_false_iff_ne, ne_eq]
                        omega
                      simp [List.filter_cons, this]
                    simp only [if_pos ht]
                    unfold scanWinner
                    rw [hmax, List.filter_append, hfe, List.append_nil, hgl]
                    simp [hvw, hmk]
                  · have hete : e.timestamp = maxTimestamp l name := by omega
                    have hmax : maxTimestamp (l ++ [e]) name = maxTimestamp l name := by
                      rw [maxTimestamp_append_single, if_pos hce]
                      omega
                    have hfe : [e].filter
                        (fun e' => containsName e' name &&
                          (e'.timestamp == maxTimestamp l name)) = [e] := by
                      simp [List.filter_cons, hce, hete]
                    simp only [if_neg ht]
                    unfold scanWinner
                    rw [hmax, List.filter_append, hfe, List.getLast?_concat]
                    simp [hc]

theorem scanWinner_isSome_iff (l : List HistoryEntry) (name : String) :
    (scanWinner l name).isSome ↔ ∃ e ∈ l, containsName e name = true := by
  unfold scanWinner
  cases hgl : (l.filter
      (fun e' => containsName e' name && (e'.timestamp == maxTimestamp l name))).getLast? with
  | none =>
      simp only [Option.none_bind, Option.isSome_none, Bool.false_eq_true, false_iff]
      intro hcon
      obtain ⟨e, hm, hc⟩ := hcon
      obtain ⟨w, hwm, hwc, hwt⟩ := maxTimestamp_attained l name ⟨e, hm, hc⟩
      have hwmem : w ∈ l.filter
          (fun e' => containsName e' name && (e'.timestamp == maxTimestamp l name)) := by
        rw [List.mem_filter]
        exact ⟨hwm, by simp [hwc, hwt]⟩
      exact List.ne_nil_of_mem hwmem (List.getLast?_eq_none_iff.mp hgl)
  | some u =>
      have hum := List.mem_of_getLast?_eq_some hgl
      have hu := List.mem_filter.mp hum
      have huc : containsName u name = true := (Bool.and_eq_true_iff.mp hu.2).1
      cases hulook : lookupName u.contracts name with
      | none => simp [containsName, hulook] at huc
      | some uv =>
          simp only [Option.some_bind, hulook, Option.map_some', Option.isSome_some,
            true_iff]
          exact ⟨u, hu.1, huc⟩

theorem scanWinner_timestamp (l : List HistoryEntry) (name : String) (r : LatestRecord)
    (h : scanWinner l name = some r) : r.timestamp = maxTimestamp l name := by
  unfold scanWinner at h
  cases hgl : (l.filter
      (fun e' => containsName e' name && (e'.timestamp == maxTimestamp l name))).getLast? with
  | none => rw [hgl] at h; simp at h
  | some w =>
      rw [hgl] at h
      simp only [Option.some_bind] at h
      rw [Option.map_eq_some'] at h
      obtain ⟨vw, hvw, hmk⟩ := h
      have hwts : w.timestamp = maxTimestamp l name := by
        have := (Bool.and_eq_true_iff.mp (List.mem_filter.mp
          (List.mem_of_getLast?_eq_some hgl)).2).2
        simpa using this
      rw [← hmk]
      simpa [mkLatest] using hwts

theorem post_history_sorted (l : List HistoryEntry) :
    ((sortAsc l).reverse).Pairwise (fun a b => b.timestamp ≤ a.timestamp) := by
  rw [List.pairwise_reverse]
  exact sortAsc_sorted l

theorem post_history_perm (l : List HistoryEntry) :
    List.Perm ((sortAsc l).reverse) l :=
  (List.reverse_perm _).trans (sortAsc_perm l)

/-- Two lists that are permutations of one another, both sorted ascending by
timestamp, with pairwise-distinct timestamps, are equal. -/
theorem sorted_perm_nodup_unique :
    ∀ (l₁ l₂ : List HistoryEntry), List.Perm l₁ l₂ →
      l₁.Pairwise (fun a b => a.timestamp ≤ b.timestamp) →
      l₂.Pairwise (fun a b => a.timestamp ≤ b.timestamp) →
      (l₁.map (fun e => e.timestamp)).Nodup → l₁ = l₂ := by
  intro l₁
  induction l₁ with
  | nil =>
      intro l₂ hp _ _ _
      exact (List.Perm.nil_eq hp).symm ▸ rfl
  | cons a t₁ ih =>
      intro l₂ hp h₁ h₂ hnd
      cases l₂ with
      | nil => exact absurd hp.symm (by simp)
      | cons b t₂ =>
          rw [List.pairwise_cons] at h₁ h₂
          have hab : a.timestamp = b.timestamp := by
            have hbmem : b ∈ a :: t₁ := hp.mem_iff.mpr (List.mem_cons_self b t₂)
            have hamem : a ∈ b :: t₂ := hp.mem_iff.mp (List.mem_cons_self a t₁)
            rcases List.mem_cons.mp hbmem with rfl | hb'
            · rfl
            · rcases List.mem_cons.mp hamem with rfl | ha'
              · rfl
              · exact Nat.le_antisymm (h₁.1 b hb') (h₂.1 a ha')
          have hba : b = a := by
            have hbmem : b ∈ a :: t₁ := hp.mem_iff.mpr (List.mem_cons_self b t₂)
            rcases List.mem_cons.mp hbmem with rfl | hb'
            · rfl
            · exfalso
              rw [List.map_cons, List.nodup_cons] at hnd
              exact hnd.1 (List.mem_map.mpr ⟨b, hb', hab.symm⟩)
          subst hba
          have htp : List.Perm t₁ t₂ := hp.cons_inv
          rw [List.map_cons, List.nodup_cons] at hnd
          rw [ih t₂ htp h₁.2 h₂.2 hnd.2]

theorem detect_duplicate_error_iff (history : List HistoryEntry) (address : String) :
    detect_duplicate history address =
        .error ("Contract " ++ address ++ " already found in deployment logs") ↔
      ∃ e ∈ history, ∃ kv ∈ e.contracts, kv.2.address = address := by
  induction history with
  | nil => simp [detect_duplicate]
  | cons item rest ih =>
      unfold detect_duplicate
      by_cases hany : item.contracts.any (fun kv => kv.2.address = address)
      · rw [if_pos hany]
        simp only [true_iff]
        obtain ⟨kv, hkv, haddr⟩ := List.any_eq_true.mp hany
        exact ⟨item, List.mem_cons_self item rest, kv, hkv, by simpa using haddr⟩
      · rw [if_neg hany]
        rw [ih]
        constructor
        · intro ⟨e, hm, kv, hkv, ha⟩
          exact ⟨e, List.mem_cons_of_mem item hm, kv, hkv, ha⟩
        · intro ⟨e, hm, kv, hkv, ha⟩
          rcases List.mem_cons.mp hm with rfl | hm'
          · exact absurd (List.any_eq_true.mpr ⟨kv, hkv, by simpa using ha⟩) hany
          · exact ⟨e, hm', kv, hkv, ha⟩

theorem detect_duplicate_ok_iff (history : List HistoryEntry) (address : String) :
    detect_duplicate history address = .ok () ↔
      ¬ ∃ e ∈ history, ∃ kv ∈ e.contracts, kv.2.address = address := by
  induction history with
  | nil => simp [detect_duplicate]
  | cons item rest ih =>
      unfold detect_duplicate
      by_cases hany : item.contracts.any (fun kv => kv.2.address = address)
      · rw [if_pos hany]
        obtain ⟨kv, hkv, haddr⟩ := List.any_eq_true.mp hany
        constructor
        · intro h
          exact absurd h (by simp)
        · intro h
          exact absurd ⟨item, List.mem_cons_self item rest, kv, hkv, by simpa using haddr⟩ h
      · rw [if_neg hany, ih]
        constructor
        · intro h hex
          obtain ⟨e, hm, kv, hkv, ha⟩ := hex
          rcases List.mem_cons.mp hm with rfl | hm'
          · exact hany (List.any_eq_true.mpr ⟨kv, hkv, by simpa using ha⟩)
          · exact h ⟨e, hm', kv, hkv, ha⟩
        · intro h hex
          obtain ⟨e, hm, kv, hkv, ha⟩ := hex
          exact h ⟨e, List.mem_cons_of_mem item hm, kv, hkv, ha⟩

theorem sortAsc_filter_and (l : List HistoryEntry) (name : String) (M : Nat) :
    (sortAsc l).filter (fun e => containsName e name && (e.timestamp == M)) =
      l.filter (fun e => containsName e name && (e.timestamp == M)) := by
  have h1 : ∀ m : List HistoryEntry,
      (m.filter (fun e => e.timestamp == M)).filter (fun e => containsName e name) =
        m.filter (fun e => containsName e name && (e.timestamp == M)) :=
    fun m => List.filter_filter _ m
  rw [← h1, sortAsc_filter, h1]

theorem post_filter_tied (l : List HistoryEntry) (name : String) (M : Nat) :
    ((sortAsc l).reverse).filter (fun e => containsName e name && (e.timestamp == M)) =
      (l.filter (fun e => containsName e name && (e.timestamp == M))).reverse := by
  rw [List.filter_reverse, sortAsc_filter_and]

theorem sortAsc_reverse_sortAsc (l : List HistoryEntry)
    (hts : (l.map (fun e => e.timestamp)).Nodup) :
    sortAsc ((sortAsc l).reverse) = sortAsc l := by
  have hperm : List.Perm (sortAsc ((sortAsc l).reverse)) (sortAsc l) :=
    (sortAsc_perm _).trans (List.reverse_perm _)
  have hndl : ((sortAsc ((sortAsc l).reverse)).map (fun e => e.timestamp)).Nodup := by
    have hpl : List.Perm (sortAsc ((sortAsc l).reverse)) l :=
      hperm.trans (sortAsc_perm l)
    exact (List.Perm.nodup_iff (List.Perm.map _ hpl)).mpr hts
  exact sorted_perm_nodup_unique _ _ hperm (sortAsc_sorted _) (sortAsc_sorted l) hndl

/-! ### Concrete example values -/

/-- A minimal contract record: no constructor inputs, no pool hash. -/
def exRecord (addr : String) : ContractRecord :=
  { address := addr
    proxy := false
    deploymentTxn := "0xT"
    constructorInput := .obj []
    poolInitCodeHash := none }

/-- A single-contract history entry as `generate_deployment_log` builds it. -/
def exEntry (ts : Nat) (name addr : String) : HistoryEntry :=
  { timestamp := ts, commitHash := none, contracts := [(name, exRecord addr)] }

/-- Two registrations of the same contract at distinct timestamps. -/
def exLogDistinct : DeploymentLog :=
  { chainId := "1", latest := []
    history := [exEntry 1000 "Foo" "0xAA", exEntry 2000 "Foo" "0xBB"] }

/-- Two entries for the same contract name sharing one timestamp. -/
def exLogTie : DeploymentLog :=
  { chainId := "1", latest := []
    history := [exEntry 5 "Factory" "0xA1", exEntry 5 "Factory" "0xA2"] }

/-- Two entries for different contract names sharing one timestamp. -/
def exLogTieNames : DeploymentLog :=
  { chainId := "1", latest := []
    history := [exEntry 5 "A" "0xA1", exEntry 5 "B" "0xA2"] }

/-! ### Claim theorems -/

/-- C1: for every history whose entries carry well-formed contracts maps
(pairwise-distinct keys, as JSON objects guarantee), the `latest` mapping
produced by the History Reconciler has exactly one key per distinct
contract name occurring anywhere in the history — its key list is
duplicate-free and a name is present exactly when it occurs in some entry —
and `latest[name].timestamp` is the maximum timestamp among all history
entries whose contracts map contains that name. -/
theorem latest_unique_keys_and_max_timestamp (log : DeploymentLog)
    (hnd : ∀ e ∈ log.history, (e.contracts.map Prod.fst).Nodup) :
    (((post_process_deployments_json log).latest.map Prod.fst).Nodup) ∧
    (∀ name : String, (lookupName (post_process_deployments_json log).latest name).isSome ↔
      ∃ e ∈ log.history, containsName e name = true) ∧
    (∀ (name : String) (r : LatestRecord),
      lookupName (post_process_deployments_json log).latest name = some r →
      r.timestamp = maxTimestamp log.history name) := by
  have hlat : (post_process_deployments_json log).latest =
      buildLatest ((sortAsc log.history).reverse) := rfl
  have hsort := post_history_sorted log.history
  have hperm := post_history_perm log.history
  have hnds : ∀ e ∈ (sortAsc log.history).reverse, (e.contracts.map Prod.fst).Nodup :=
    fun e he => hnd e (hperm.mem_iff.mp he)
  refine ⟨?_, ?_, ?_⟩
  · rw [hlat]
    exact nodup_keys_buildLatest _
  · intro name
    rw [hlat, buildLatest_lookup _ name hsort hnds, scanWinner_isSome_iff]
    constructor
    · intro hex
      obtain ⟨e, he, hc⟩ := hex
      exact ⟨e, hperm.mem_iff.mp he, hc⟩
    · intro hex
      obtain ⟨e, he, hc⟩ := hex
      exact ⟨e, hperm.mem_iff.mpr he, hc⟩
  · intro name r hr
    rw [hlat, buildLatest_lookup _ name hsort hnds] at hr
    rw [scanWinner_timestamp _ name r hr]
    exact maxTimestamp_perm hperm name

/-- Witness for C1 at a concrete two-entry history. -/
theorem latest_unique_keys_and_max_timestamp_witness :
    (∀ e ∈ exLogDistinct.history, (e.contracts.map Prod.fst).Nodup) ∧
    (((post_process_deployments_json exLogDistinct).latest.map Prod.fst).Nodup) :=
  ⟨by decide, (latest_unique_keys_and_max_timestamp exLogDistinct (by decide)).1⟩

/-- C2 counterexample: with two tied same-name entries, the entry scanned
first in the reconciled (sorted) history carries address `0xA2`, yet
`latest` holds `0xA1` — the winner is a later-scanned tied entry, so the
claim "the first-scanned tied entry wins, not any later-scanned one" fails
on this input. -/
theorem tie_break_first_scanned_counterexample :
    ((post_process_deployments_json exLogTie).history.head?.map
      (fun e => (lookupName e.contracts "Factory").map (fun v => v.address))) =
      some (some "0xA2") ∧
    ((lookupName (post_process_deployments_json exLogTie).latest "Factory").map
      (fun r => r.address)) = some "0xA1" ∧
    ("0xA1" : String) ≠ "0xA2" :=
  ⟨rfl, rfl, by decide⟩

/-- C2 corrected: among entries containing `name` that share the maximal
timestamp, `latest[name]` is taken from the entry encountered *last* during
the scan of the sorted history (the walk overwrites on ties); equivalently,
since the sort reverses tied runs, from the tied entry occurring *first* in
the pre-sort history. -/
theorem latest_tie_goes_to_last_scanned (log : DeploymentLog)
    (hnd : ∀ e ∈ log.history, (e.contracts.map Prod.fst).Nodup) (name : String) :
    lookupName (post_process_deployments_json log).latest name =
      scanWinner (post_process_deployments_json log).history name ∧
    lookupName (post_process_deployments_json log).latest name =
      ((log.history.filter (fun e => containsName e name &&
          (e.timestamp == maxTimestamp log.history name))).head?).bind
        (fun e => (lookupName e.contracts name).map (mkLatest e)) := by
  have hsort := post_history_sorted log.history
  have hperm := post_history_perm log.history
  have hnds : ∀ e ∈ (sortAsc log.history).reverse, (e.contracts.map Prod.fst).Nodup :=
    fun e he => hnd e (hperm.mem_iff.mp he)
  have h1 : lookupName (post_process_deployments_json log).latest name =
      scanWinner ((sortAsc log.history).reverse) name :=
    buildLatest_lookup _ name hsort hnds
  refine ⟨h1, ?_⟩
  rw [h1]
  unfold scanWinner
  simp only [maxTimestamp_perm hperm name]
  rw [post_filter_tied, List.getLast?_reverse]

/-- Witness for the corrected C2 at a concrete tied history. -/
theorem latest_tie_goes_to_last_scanned_witness :
    (∀ e ∈ exLogTie.history, (e.contracts.map Prod.fst).Nodup) ∧
    lookupName (post_process_deployments_json exLogTie).latest "Factory" =
      ((exLogTie.history.filter (fun e => containsName e "Factory" &&
          (e.timestamp == maxTimestamp exLogTie.history "Factory"))).head?).bind
        (fun e => (lookupName e.contracts "Factory").map (mkLatest e)) :=
  ⟨by decide, (latest_tie_goes_to_last_scanned exLogTie (by decide) "Factory").2⟩

/-- C3 counterexample: two entries with equal timestamps appear in the
reconciled history in the *opposite* relative order to the input history
(names `A` then `B` on input, `B` then `A` after reconciliation), so the
sort is not stable with respect to the pre-sort order. -/
theorem stable_sort_order_counterexample :
    exLogTieNames.history.map (fun e => e.timestamp) = [5, 5] ∧
    exLogTieNames.history.map (fun e => e.contracts.map Prod.fst) = [["A"], ["B"]] ∧
    (post_process_deployments_json exLogTieNames).history.map
      (fun e => e.contracts.map Prod.fst) = [["B"], ["A"]] :=
  ⟨rfl, rfl, rfl⟩

/-- C3 corrected: the reconciled history is the reverse of a stable
ascending sort, so for every timestamp the run of entries carrying it
appears in *reversed* relative order compared to the input history. -/
theorem sorted_history_reverses_equal_timestamp_runs (log : DeploymentLog) (t : Nat) :
    (post_process_deployments_json log).history.filter (fun e => e.timestamp == t) =
      (log.history.filter (fun e => e.timestamp == t)).reverse := by
  show ((sortAsc log.history).reverse).filter _ = _
  rw [List.filter_reverse, sortAsc_filter]

/-- C4 counterexample: on a history with two tied same-name entries,
applying the History Reconciler twice flips the order of the tied run again
and flips which tied entry wins `latest`, so neither the `history` ordering
nor the `latest` mapping is preserved by a second application. -/
theorem reconcile_idempotent_counterexample :
    ((post_process_deployments_json exLogTie).history.map
      (fun e => (lookupName e.contracts "Factory").map (fun v => v.address)) =
      [some "0xA2", some "0xA1"]) ∧
    ((post_process_deployments_json (post_process_deployments_json exLogTie)).history.map
      (fun e => (lookupName e.contracts "Factory").map (fun v => v.address)) =
      [some "0xA1", some "0xA2"]) ∧
    ((lookupName (post_process_deployments_json exLogTie).latest "Factory").map
      (fun r => r.address) = some "0xA1") ∧
    ((lookupName (post_process_deployments_json (post_process_deployments_json
      exLogTie)).latest "Factory").map (fun r => r.address) = some "0xA2") :=
  ⟨rfl, rfl, rfl, rfl⟩

/-- C4 corrected: when all history timestamps are pairwise distinct (no tied
runs), the History Reconciler is idempotent: a second application returns
the identical log — same `latest` mapping and same `history` ordering. -/
theorem reconcile_idempotent_of_distinct_timestamps (log : DeploymentLog)
    (hts : (log.history.map (fun e => e.timestamp)).Nodup) :
    post_process_deployments_json (post_process_deployments_json log) =
      post_process_deployments_json log := by
  have hh : sortAsc ((sortAsc log.history).reverse) = sortAsc log.history :=
    sortAsc_reverse_sortAsc log.history hts
  simp only [post_process_deployments_json]
  rw [hh]

/-- Witness for the corrected C4 at a concrete distinct-timestamp history. -/
theorem reconcile_idempotent_of_distinct_timestamps_witness :
    ((exLogDistinct.history.map (fun e => e.timestamp)).Nodup) ∧
    post_process_deployments_json (post_process_deployments_json exLogDistinct) =
      post_process_deployments_json exLogDistinct :=
  ⟨by decide, reconcile_idempotent_of_distinct_timestamps exLogDistinct (by decide)⟩

/-- C5: the Duplicate Detector fails — with the error message carrying the
candidate address — exactly when some contract record in some history entry
has that address as its stored `address` string, and succeeds otherwise;
it is a pure function of the history, which it returns unmodified by
construction. -/
theorem detect_duplicate_iff_address_present (history : List HistoryEntry) (address : String) :
    (detect_duplicate history address =
        .error ("Contract " ++ address ++ " already found in deployment logs") ↔
      ∃ e ∈ history, ∃ kv ∈ e.contracts, kv.2.address = address) ∧
    (detect_duplicate history address = .ok () ↔
      ¬ ∃ e ∈ history, ∃ kv ∈ e.contracts, kv.2.address = address) :=
  ⟨detect_duplicate_error_iff history address, detect_duplicate_ok_iff history address⟩

/-- Control-flow skeleton of `generate_deployment_log`: either some step
before the write failed and the disk is untouched, or the write happened —
in which case the call either succeeded (chronicles installed) or failed
with the chronicles error (chronicles missing). -/
theorem generate_disk_cases (contract_address chain_id : String) (env : GenEnv) :
    (generate_deployment_log contract_address chain_id env).2 = env.fileContent ∨
    ((generate_deployment_log contract_address chain_id env).1 = .ok () ∧
      env.chroniclesExists = true) ∨
    ((generate_deployment_log contract_address chain_id env).1 =
        .error "forge-chronicles not installed. Please run 'forge install 0xPolygon/forge-chronicles'" ∧
      env.chroniclesExists = false) := by
  simp only [generate_deployment_log]
  repeat' split
  all_goals simp_all

/-- C6: when the forge-chronicles script is installed (so the only error
after the persist step cannot occur), every failing registration fails
before the write and leaves the on-disk log exactly as it was. -/
theorem failed_registration_preserves_log (contract_address chain_id : String)
    (env : GenEnv) (msg : String)
    (hchron : env.chroniclesExists = true)
    (herr : (generate_deployment_log contract_address chain_id env).1 = .error msg) :
    (generate_deployment_log contract_address chain_id env).2 = env.fileContent := by
  rcases generate_disk_cases contract_address chain_id env with h | h | h
  · exact h
  · rw [h.1] at herr
    exact absurd herr (by simp)
  · rw [h.2] at hchron
    exact absurd hchron (by simp)

/-- A registration environment whose candidate address collides with the
existing history. -/
def exGenEnvDup : GenEnv :=
  { fileContent := some { chainId := "1", latest := [], history := [exEntry 5 "Foo" "0xA"] }
    contractDataRes := .ok ("Bar", none)
    artifactExists := fun _ => true
    txHashRes := .ok "0xT2"
    blockNumberRes := .ok 1
    timestampRes := .ok 9
    decodeRes := .ok []
    v2HashRes := .ok "0xh2"
    v3HashRes := .ok "0xh3"
    mkdirRes := .ok ()
    chroniclesExists := true }

/-- Witness for C6: a duplicate-address registration fails and the on-disk
log is untouched. -/
theorem failed_registration_preserves_log_witness :
    exGenEnvDup.chroniclesExists = true ∧
    (generate_deployment_log "0xA" "1" exGenEnvDup).1 =
      .error ("Contract " ++ "0xA" ++ " already found in deployment logs") ∧
    (generate_deployment_log "0xA" "1" exGenEnvDup).2 = exGenEnvDup.fileContent :=
  ⟨rfl, rfl, failed_registration_preserves_log "0xA" "1" exGenEnvDup _ rfl rfl⟩

/-- C7: a decoded value that is an array or fixed-size array makes the ABI
Value Serializer fail with the explicit unsupported-type error, and a
constructor argument of array shape at any position makes the whole
constructor-input extraction fail rather than return a partial result. -/
theorem serialize_value_rejects_arrays :
    (∀ (p : Param) (l : List DynSolValue),
      serialize_value p (.array l) = .error "Found array, not implemented") ∧
    (∀ (p : Param) (l : List DynSolValue),
      serialize_value p (.fixedArray l) = .error "Found fixed array, not implemented") ∧
    (∀ (ps : List Param) (args : List DynSolValue) (i : Nat)
      (_hp : i < ps.length) (ha : i < args.length),
      (∃ l, args.get ⟨i, ha⟩ = DynSolValue.array l ∨
        args.get ⟨i, ha⟩ = DynSolValue.fixedArray l) →
      ∃ msg, extract_constructor_inputs ps args = .error msg) := by
  refine ⟨fun p l => rfl, fun p l => rfl, ?_⟩
  have main : ∀ (ps : List Param) (args : List DynSolValue) (i : Nat),
      i < ps.length → ∀ ha : i < args.length,
      (∃ l, args.get ⟨i, ha⟩ = DynSolValue.array l ∨
        args.get ⟨i, ha⟩ = DynSolValue.fixedArray l) →
      ∀ acc, ∃ msg, extract_go ps args acc = .error msg := by
    intro ps
    induction ps with
    | nil =>
        intro args i hp
        simp at hp
    | cons p ps' ih =>
        intro args i hp ha hex acc
        cases args with
        | nil => simp at ha
        | cons a args' =>
            cases i with
            | zero =>
                obtain ⟨l, hl⟩ := hex
                rcases hl with hl | hl
                · have hl2 : a = DynSolValue.array l := hl
                  subst hl2
                  exact ⟨"Found array, not implemented", rfl⟩
                · have hl2 : a = DynSolValue.fixedArray l := hl
                  subst hl2
                  exact ⟨"Found fixed array, not implemented", rfl⟩
            | succ n =>
                cases hs : serialize_value p a with
                | error e =>
                    refine ⟨e, ?_⟩
                    unfold extract_go
                    rw [hs]
                | ok j =>
                    have hex' : ∃ l,
                        args'.get ⟨n, Nat.lt_of_succ_lt_succ ha⟩ = DynSolValue.array l ∨
                        args'.get ⟨n, Nat.lt_of_succ_lt_succ ha⟩ = DynSolValue.fixedArray l := by
                      obtain ⟨l, hl⟩ := hex
                      exact ⟨l, hl⟩
                    obtain ⟨msg, hmsg⟩ := ih args' n (Nat.lt_of_succ_lt_succ hp)
                      (Nat.lt_of_succ_lt_succ ha) hex' (setKey acc p.name j)
                    refine ⟨msg, ?_⟩
                    unfold extract_go
                    rw [hs]
                    exact hmsg
  intro ps args i hp ha hex
  exact main ps args i hp ha hex []

/-- Witness for C7: a single array-typed constructor argument makes the
extraction fail. -/
theorem serialize_value_rejects_arrays_witness :
    ∃ msg, extract_constructor_inputs [Param.mk "p" []] [DynSolValue.array []] = .error msg :=
  serialize_value_rejects_arrays.2.2 [Param.mk "p" []] [DynSolValue.array []] 0
    (by decide) (by decide) ⟨[], Or.inl rfl⟩

/-- C8: the ABI Value Serializer renders a boolean as the literal string
"true"/"false" (a JSON string, never a JSON boolean), renders signed and
unsigned integers of any width as their exact decimal string (never a JSON
number), and renders a variable-length byte sequence as the hex encoding of
its single-value ABI re-encoding — offset word, length word, padded data —
rather than of the raw bytes. -/
theorem serialize_value_scalar_strings (p : Param) :
    (∀ b : Bool, serialize_value p (.bool b) =
      .ok (.str (if b then "true" else "false"))) ∧
    (∀ (i : Int) (w : Nat), serialize_value p (.int i w) = .ok (.str (toString i))) ∧
    (∀ (u w : Nat), serialize_value p (.uint u w) = .ok (.str (toString u))) ∧
    (∀ bs : List Nat, serialize_value p (.bytes bs) =
      .ok (.str (hex_encode (word256 32 ++ word256 bs.length ++ padRight32 bs)))) :=
  ⟨fun _ => rfl, fun _ _ => rfl, fun _ _ => rfl, fun _ => rfl⟩

/-- Character-wise lowercase folding of a string: two hex renderings of the
same address differ only in the letter case of their hex digits exactly
when their `lowerHex` images coincide. -/
def lowerHex (s : String) : String :=
  String.mk (s.data.map Char.toLower)

/-- C10: the Duplicate Detector compares the candidate to stored addresses
by exact, case-sensitive string equality: whenever every stored address
that denotes the same address up to hex-letter case differs from the
candidate as a string, the check succeeds and reports no duplicate. -/
theorem detect_duplicate_case_sensitive (history : List HistoryEntry) (address : String)
    (h : ∀ e ∈ history, ∀ kv ∈ e.contracts,
      lowerHex kv.2.address = lowerHex address → kv.2.address ≠ address) :
    detect_duplicate history address = .ok () := by
  rw [detect_duplicate_ok_iff]
  intro hex
  obtain ⟨e, he, kv, hkv, ha⟩ := hex
  exact h e he kv hkv (by rw [ha]) ha

/-- Witness for C10: a checksummed stored rendering and a lowercase
candidate denote the same address but are not reported as duplicates. -/
theorem detect_duplicate_case_sensitive_witness :
    lowerHex "0xAbCd" = lowerHex "0xabcd" ∧
    ("0xAbCd" : String) ≠ "0xabcd" ∧
    detect_duplicate [exEntry 5 "Foo" "0xAbCd"] "0xabcd" = .ok () :=
  ⟨by decide, by decide, detect_duplicate_case_sensitive _ _ (by decide)⟩

/-- Appending an entry whose timestamp strictly exceeds that of every
existing entry for its name, then reconciling, makes that entry the unique
winner for its name: it appears in the reconciled history and `latest[name]`
is built from it. -/
theorem latest_after_fresh_append (L : DeploymentLog)
    (name contract_address tx : String) (cj : Json) (pool : Option String) (ts : Nat)
    (out : DeploymentLog)
    (hnd : ∀ e ∈ L.history, (e.contracts.map Prod.fst).Nodup)
    (hfresh : ∀ e ∈ L.history, containsName e name = true → e.timestamp < ts)
    (hpool : pool.isSome = true ↔
      (name = "UniswapV2Factory" ∨ name = "UniswapV3Factory"))
    (hout : post_process_deployments_json
        ⟨L.chainId, L.latest, L.history ++
          [⟨ts, none, [(name, ⟨contract_address, false, tx, cj, pool⟩)]⟩]⟩ = out) :
    ∃ rec : ContractRecord,
      (∃ e ∈ out.history, e.timestamp = ts ∧ e.contracts = [(name, rec)]) ∧
      (rec.poolInitCodeHash.isSome = true ↔
        (name = "UniswapV2Factory" ∨ name = "UniswapV3Factory")) ∧
      (lookupName out.latest name).map (fun r => r.poolInitCodeHash) =
        some rec.poolInitCodeHash := by
  subst hout
  set rec : ContractRecord := ⟨contract_address, false, tx, cj, pool⟩ with hrec
  set entry : HistoryEntry := ⟨ts, none, [(name, rec)]⟩ with hentry
  have hcont : containsName entry name = true := by
    simp [hentry, containsName, lookupName]
  have hperm := post_history_perm (L.history ++ [entry])
  have hsort := post_history_sorted (L.history ++ [entry])
  have hnds : ∀ e ∈ (sortAsc (L.history ++ [entry])).reverse,
      (e.contracts.map Prod.fst).Nodup := by
    intro e he
    rcases List.mem_append.mp (hperm.mem_iff.mp he) with hm | hm
    · exact hnd e hm
    · rcases List.mem_singleton.mp hm with rfl
      simp [hentry]
  refine ⟨rec, ⟨entry, ?_, rfl, rfl⟩, by simpa [hrec] using hpool, ?_⟩
  · exact hperm.mem_iff.mpr (List.mem_append_right _ (List.mem_singleton_self entry))
  · have h1 : lookupName (post_process_deployments_json
        { chainId := L.chainId, latest := L.latest,
          history := L.history ++ [entry] }).latest name =
        scanWinner ((sortAsc (L.history ++ [entry])).reverse) name :=
      buildLatest_lookup _ name hsort hnds
    have hmax0 : maxTimestamp (L.history ++ [entry]) name = ts := by
      rw [maxTimestamp_append_single, if_pos hcont]
      have hle : maxTimestamp L.history name ≤ ts :=
        maxTimestamp_le_of _ _ _ (fun e hm hc => Nat.le_of_lt (hfresh e hm hc))
      have hets : entry.timestamp = ts := rfl
      omega
    have hmaxs : maxTimestamp ((sortAsc (L.history ++ [entry])).reverse) name = ts :=
      (maxTimestamp_perm hperm name).trans hmax0
    have hfl : (L.history ++ [entry]).filter
        (fun e => containsName e name && (e.timestamp == ts)) = [entry] := by
      rw [List.filter_append]
      have hnil : L.history.filter
          (fun e => containsName e name && (e.timestamp == ts)) = [] := by
        rw [List.filter_eq_nil_iff]
        intro e hm hand
        have hc := (Bool.and_eq_true_iff.mp hand).1
        have ht : e.timestamp = ts := by
          simpa using (Bool.and_eq_true_iff.mp hand).2
        have := hfresh e hm hc
        omega
      have hone : [entry].filter
          (fun e => containsName e name && (e.timestamp == ts)) = [entry] := by
        simp [List.filter_cons, hcont, hentry]
      rw [hnil, hone, List.nil_append]
    have hfs : ((sortAsc (L.history ++ [entry])).reverse).filter
        (fun e => containsName e name && (e.timestamp == ts)) = [entry] := by
      have hp := List.Perm.filter
        (fun e => containsName e name && (e.timestamp == ts)) hperm
      rw [hfl] at hp
      exact List.perm_singleton.mp hp
    rw [h1]
    unfold scanWinner
    simp only [hmaxs]
    rw [hfs]
    simp [hentry, hrec, lookupName, mkLatest]

/-- A successful registration of `UniswapV3Factory` into an empty log. -/
def exGenEnvV3 : GenEnv :=
  { fileContent := none
    contractDataRes := .ok ("UniswapV3Factory", none)
    artifactExists := fun _ => true
    txHashRes := .ok "0xT"
    blockNumberRes := .ok 1
    timestampRes := .ok 7
    decodeRes := .ok []
    v2HashRes := .ok "0xv2hash"
    v3HashRes := .ok "0xv3hash"
    mkdirRes := .ok ()
    chroniclesExists := true }

/-- C9 counterexample: registering `UniswapV3Factory` — a name other than
`UniswapV2Factory` — populates `poolInitCodeHash` in both the latest
projection and the new history record, so "any other name never populates
it" fails on this input. -/
theorem pool_hash_other_names_counterexample :
    ("UniswapV3Factory" : String) ≠ "UniswapV2Factory" ∧
    ((generate_deployment_log "0xF" "1" exGenEnvV3).2.bind
      (fun l => (lookupName l.latest "UniswapV3Factory").bind
        (fun r => r.poolInitCodeHash))) = some "0xv3hash" ∧
    ((generate_deployment_log "0xF" "1" exGenEnvV3).2.bind
      (fun l => l.history.head?.bind
        (fun e => (lookupName e.contracts "UniswapV3Factory").bind
          (fun v => v.poolInitCodeHash)))) = some "0xv3hash" :=
  ⟨by decide, rfl, rfl⟩

/-- C9 corrected: for a successful registration whose block timestamp
strictly exceeds that of every existing entry for the registered name, the
new history record and the latest projection carry `poolInitCodeHash`
exactly when the contract name is `UniswapV2Factory` or `UniswapV3Factory`
(the code recognizes both factories); for any other name neither carries
it. -/
theorem pool_hash_for_recognized_factories
    (contract_address chain_id name : String) (ctor : Option Constructor) (ts : Nat)
    (env : GenEnv) (out : DeploymentLog)
    (hdata : env.contractDataRes = .ok (name, ctor))
    (hts : env.timestampRes = .ok ts)
    (hnd : ∀ e ∈ (loadedLog env chain_id).history, (e.contracts.map Prod.fst).Nodup)
    (hfresh : ∀ e ∈ (loadedLog env chain_id).history,
      containsName e name = true → e.timestamp < ts)
    (hok : generate_deployment_log contract_address chain_id env = (.ok (), some out)) :
    ∃ rec : ContractRecord,
      (∃ e ∈ out.history, e.timestamp = ts ∧ e.contracts = [(name, rec)]) ∧
      (rec.poolInitCodeHash.isSome = true ↔
        (name = "UniswapV2Factory" ∨ name = "UniswapV3Factory")) ∧
      (lookupName out.latest name).map (fun r => r.poolInitCodeHash) =
        some rec.poolInitCodeHash := by
  by_cases hart : env.artifactExists name = true
  case neg => simp [generate_deployment_log, hdata, hart] at hok
  case pos =>
  cases hdd : detect_duplicate (loadedLog env chain_id).history contract_address with
  | error e => simp [generate_deployment_log, hdata, hart, hdd] at hok
  | ok u =>
  cases u
  cases htx : env.txHashRes with
  | error e => simp [generate_deployment_log, hdata, hart, hdd, htx] at hok
  | ok tx =>
  cases hbn : env.blockNumberRes with
  | error e => simp [generate_deployment_log, hdata, hart, hdd, htx, hbn] at hok
  | ok bn =>
  cases ctor with
  | none =>
      by_cases hv2 : name = "UniswapV2Factory"
      · subst hv2
        cases hv2r : env.v2HashRes with
        | error e =>
            simp [generate_deployment_log, hdata, hart, hdd, htx, hbn, hts, hv2r,
              Except.map] at hok
        | ok h2 =>
            cases hmk : env.mkdirRes with
            | error e =>
                simp [generate_deployment_log, hdata, hart, hdd, htx, hbn, hts, hv2r,
                  hmk, Except.map] at hok
            | ok u2 =>
            cases u2
            by_cases hch : env.chroniclesExists = true
            · simp [generate_deployment_log, hdata, hart, hdd, htx, hbn, hts, hv2r, hmk,
                hch, Except.map] at hok
              exact latest_after_fresh_append _ _ contract_address tx _ (some h2) ts out
                hnd hfresh (by simp) hok
            · simp [generate_deployment_log, hdata, hart, hdd, htx, hbn, hts, hv2r, hmk,
                hch, Except.map] at hok
      · by_cases hv3 : name = "UniswapV3Factory"
        · subst hv3
          cases hv3r : env.v3HashRes with
          | error e =>
              simp [generate_deployment_log, hdata, hart, hdd, htx, hbn, hts, hv3r,
                Except.map] at hok
          | ok h3 =>
              cases hmk : env.mkdirRes with
              | error e =>
                  simp [generate_deployment_log, hdata, hart, hdd, htx, hbn, hts, hv3r,
                    hmk, Except.map] at hok
              | ok u2 =>
              cases u2
              by_cases hch : env.chroniclesExists = true
              · simp [generate_deployment_log, hdata, hart, hdd, htx, hbn, hts, hv3r, hmk,
                  hch, Except.map] at hok
                exact latest_after_fresh_append _ _ contract_address tx _ (some h3) ts out
                  hnd hfresh (by simp) hok
              · simp [generate_deployment_log, hdata, hart, hdd, htx, hbn, hts, hv3r, hmk,
                  hch, Except.map] at hok
        · cases hmk : env.mkdirRes with
          | error e =>
              simp [generate_deployment_log, hdata, hart, hdd, htx, hbn, hts, hv2, hv3,
                hmk, Except.map] at hok
          | ok u2 =>
          cases u2
          by_cases hch : env.chroniclesExists = true
          · simp [generate_deployment_log, hdata, hart, hdd, htx, hbn, hts, hv2, hv3, hmk,
              hch, Except.map] at hok
            exact latest_after_fresh_append _ _ contract_address tx _ none ts out
              hnd hfresh (by simp [hv2, hv3]) hok
          · simp [generate_deployment_log, hdata, hart, hdd, htx, hbn, hts, hv2, hv3, hmk,
              hch, Except.map] at hok
  | some c =>
      cases hdec : env.decodeRes with
      | error e =>
          simp [generate_deployment_log, hdata, hart, hdd, htx, hbn, hts, hdec,
            Except.map] at hok
      | ok a =>
      cases hext : extract_constructor_inputs c.inputs a with
      | error e =>
          simp [generate_deployment_log, hdata, hart, hdd, htx, hbn, hts, hdec, hext,
            Except.map] at hok
          split at hok <;> simp_all
      | ok cj =>
      by_cases hv2 : name = "UniswapV2Factory"
      · subst hv2
        cases hv2r : env.v2HashRes with
        | error e =>
            simp [generate_deployment_log, hdata, hart, hdd, htx, hbn, hts, hdec, hv2r,
              Except.map] at hok
        | ok h2 =>
            cases hmk : env.mkdirRes with
            | error e =>
                simp [generate_deployment_log, hdata, hart, hdd, htx, hbn, hts, hdec,
                  hext, hv2r, hmk, Except.map] at hok
            | ok u2 =>
            cases u2
            by_cases hch : env.chroniclesExists = true
            · simp [generate_deployment_log, hdata, hart, hdd, htx, hbn, hts, hdec, hext,
                hv2r, hmk, hch, Except.map] at hok
              exact latest_after_fresh_append _ _ contract_address tx cj (some h2) ts out
                hnd hfresh (by simp) hok
            · simp [generate_deployment_log, hdata, hart, hdd, htx, hbn, hts, hdec, hext,
                hv2r, hmk, hch, Except.map] at hok
      · by_cases hv3 : name = "UniswapV3Factory"
        · subst hv3
          cases hv3r : env.v3HashRes with
          | error e =>
              simp [generate_deployment_log, hdata, hart, hdd, htx, hbn, hts, hdec, hv3r,
                Except.map] at hok
          | ok h3 =>
              cases hmk : env.mkdirRes with
              | error e =>
                  simp [generate_deployment_log, hdata, hart, hdd, htx, hbn, hts, hdec,
                    hext, hv3r, hmk, Except.map] at hok
              | ok u2 =>
              cases u2
              by_cases hch : env.chroniclesExists = true
              · simp [generate_deployment_log, hdata, hart, hdd, htx, hbn, hts, hdec, hext,
                  hv3r, hmk, hch, Except.map] at hok
                exact latest_after_fresh_append _ _ contract_address tx cj (some h3) ts out
                  hnd hfresh (by simp) hok
              · simp [generate_deployment_log, hdata, hart, hdd, htx, hbn, hts, hdec, hext,
                  hv3r, hmk, hch, Except.map] at hok
        · cases hmk : env.mkdirRes with
          | error e =>
              simp [generate_deployment_log, hdata, hart, hdd, htx, hbn, hts, hdec, hext,
                hv2, hv3, hmk, Except.map] at hok
          | ok u2 =>
          cases u2
          by_cases hch : env.chroniclesExists = true
          · simp [generate_deployment_log, hdata, hart, hdd, htx, hbn, hts, hdec, hext,
              hv2, hv3, hmk, hch, Except.map] at hok
            exact latest_after_fresh_append _ _ contract_address tx cj none ts out
              hnd hfresh (by simp [hv2, hv3]) hok
          · simp [generate_deployment_log, hdata, hart, hdd, htx, hbn, hts, hdec, hext,
              hv2, hv3, hmk, hch, Except.map] at hok

/-- A successful registration of `UniswapV2Factory` into an empty log. -/
def exGenEnvV2 : GenEnv :=
  { fileContent := none
    contractDataRes := .ok ("UniswapV2Factory", none)
    artifactExists := fun _ => true
    txHashRes := .ok "0xT"
    blockNumberRes := .ok 1
    timestampRes := .ok 7
    decodeRes := .ok []
    v2HashRes := .ok "0xv2hash"
    v3HashRes := .ok "0xv3hash"
    mkdirRes := .ok ()
    chroniclesExists := true }

/-- The log produced by the example `UniswapV2Factory` registration. -/
def exOutV2 : DeploymentLog :=
  ((generate_deployment_log "0xF" "1" exGenEnvV2).2).getD
    { chainId := "", latest := [], history := [] }

/-- Witness for the corrected C9: a concrete fresh `UniswapV2Factory`
registration. -/
theorem pool_hash_for_recognized_factories_witness :
    ∃ rec : ContractRecord,
      (∃ e ∈ exOutV2.history, e.timestamp = 7 ∧
        e.contracts = [("UniswapV2Factory", rec)]) ∧
      (rec.poolInitCodeHash.isSome = true ↔
        ("UniswapV2Factory" = "UniswapV2Factory" ∨
          "UniswapV2Factory" = "UniswapV3Factory")) ∧
      (lookupName exOutV2.latest "UniswapV2Factory").map
        (fun r => r.poolInitCodeHash) = some rec.poolInitCodeHash :=
  pool_hash_for_recognized_factories "0xF" "1" "UniswapV2Factory" none 7 exGenEnvV2
    exOutV2 rfl rfl (by simp [loadedLog, exGenEnvV2]) (by simp [loadedLog, exGenEnvV2]) rfl

end Chronicles
